import Mathlib

/-!
Verification of the Oscar voice-note application's core algorithmic
components: the transcript reconciler (`mergeTranscripts`, duplicated in
`src/app/recording/page.tsx` and in the RecordingButton component) and the
text structurer (`src/lib/aiFormatter.ts`).

JavaScript strings are modelled as `List Char`.  Each definition is a direct
translation of the corresponding TypeScript function; regular-expression
replacements are translated match-by-match following the left-to-right,
non-overlapping scanning semantics of `String.replace` with a global regex.
-/

namespace Oscar

/-- The ASCII whitespace characters matched by the JavaScript `\s` class
(space, tab, line feed, vertical tab, form feed, carriage return). -/
def isWs (c : Char) : Bool :=
  c = ' ' || c = '\t' || c = '\n' || c = Char.ofNat 11 || c = Char.ofNat 12 || c = '\r'

/-- The punctuation class `[,.!?]` used by the normalization regexes in
`formatAudioPenStyle` (src/lib/aiFormatter.ts lines 187-189). -/
def isPunct (c : Char) : Bool :=
  c = ',' || c = '.' || c = '!' || c = '?'

/-- The sentence-terminator class `[.!?]`. -/
def isTerm (c : Char) : Bool :=
  c = '.' || c = '!' || c = '?'

/-! ## Transcript reconciler (src/app/recording/page.tsx lines 323-344) -/

/-- The overlap scan of `mergeTranscripts` (page.tsx lines 335-340): for
`i = n, n-1, ..., 1` test `previous.slice(-i) === incoming.slice(0, i)` and
return the first (hence largest) matching `i`. -/
def findOverlap (previous incoming : List Char) : Nat → Option Nat
  | 0 => none
  | n + 1 =>
    if previous.drop (previous.length - (n + 1)) = incoming.take (n + 1) then some (n + 1)
    else findOverlap previous incoming n

/-- `mergeTranscripts` from src/app/recording/page.tsx lines 323-344.
`!incoming` / `!previous` test for the empty string; `startsWith`,
`includes`, `slice` and `endsWith(' ')` are the JavaScript string methods. -/
def mergeTranscripts (previous incoming : List Char) : List Char :=
  if incoming = [] then previous
  else if previous = [] then incoming
  else if previous <+: incoming then incoming
  else if previous <:+: incoming then incoming
  else if incoming <:+: previous then previous
  else
    match findOverlap previous incoming (min previous.length incoming.length) with
    | some i => previous ++ incoming.drop i
    | none => previous ++ (if previous.getLast? = some ' ' then [] else [' ']) ++ incoming

namespace RecordingButton

/-- The overlap scan of the duplicated `mergeTranscripts` in the
RecordingButton component (src/lib/aiFormatter.ts companion document,
lines 521-526). -/
def findOverlap (previous incoming : List Char) : Nat → Option Nat
  | 0 => none
  | n + 1 =>
    if previous.drop (previous.length - (n + 1)) = incoming.take (n + 1) then some (n + 1)
    else findOverlap previous incoming n

/-- The duplicated `mergeTranscripts` from the RecordingButton component
(lines 513-528 of the second document in src/lib/aiFormatter.ts). -/
def mergeTranscripts (previous incoming : List Char) : List Char :=
  if incoming = [] then previous
  else if previous = [] then incoming
  else if previous <+: incoming then incoming
  else if previous <:+: incoming then incoming
  else if incoming <:+: previous then previous
  else
    match findOverlap previous incoming (min previous.length incoming.length) with
    | some i => previous ++ incoming.drop i
    | none => previous ++ (if previous.getLast? = some ' ' then [] else [' ']) ++ incoming

end RecordingButton

/-- `k` is an admissible overlap length between `previous` and `incoming`:
the last `k` characters of `previous` equal the first `k` characters of
`incoming` (the condition scanned by the loop at page.tsx lines 336-340). -/
def overlapAt (previous incoming : List Char) (k : Nat) : Prop :=
  1 ≤ k ∧ k ≤ min previous.length incoming.length ∧
    previous.drop (previous.length - k) = incoming.take k

instance (p i : List Char) (k : Nat) : Decidable (overlapAt p i k) := by
  unfold overlapAt; infer_instance

/-! ## Text normalization (src/lib/aiFormatter.ts lines 186-190)

`formatAudioPenStyle` first cleans its input with
`.replace(/\s+/g, ' ').replace(/\s+([,.!?])/g, '$1')
 .replace(/([,.!?])([^\s])/g, '$1 $2').trim()`.
Each global-regex replacement scans left to right over non-overlapping
matches of the original string. -/

/-- `.replace(/\s+/g, ' ')`: each maximal run of whitespace becomes a single
space.  Translated per character: a whitespace character followed by more
whitespace is dropped, the last of a run becomes `' '`. -/
def collapseWs : List Char → List Char
  | [] => []
  | c :: cs =>
    if isWs c then
      match cs with
      | [] => [' ']
      | d :: _ => if isWs d then collapseWs cs else ' ' :: collapseWs cs
    else c :: collapseWs cs

/-- `.replace(/\s+([,.!?])/g, '$1')`: a whitespace run immediately followed
by punctuation is deleted.  `\s+` matches greedily and the regex cannot
match starting inside a run whose following character is not punctuation, so
per character: a whitespace character is dropped exactly when the first
non-whitespace character after it is punctuation. -/
def rmSpBefore : List Char → List Char
  | [] => []
  | c :: cs =>
    if isWs c then
      match (cs.dropWhile (fun d => isWs d)).head? with
      | some p => if isPunct p then rmSpBefore cs else c :: rmSpBefore cs
      | none => c :: rmSpBefore cs
    else c :: rmSpBefore cs

/-- `.replace(/([,.!?])([^\s])/g, '$1 $2')`: insert a space between a
punctuation character and a following non-whitespace character; both matched
characters are consumed, so scanning resumes after them. -/
def addSpAfter : List Char → List Char
  | [] => []
  | [c] => [c]
  | c1 :: c2 :: cs =>
    if isPunct c1 && !isWs c2 then c1 :: ' ' :: c2 :: addSpAfter cs
    else c1 :: addSpAfter (c2 :: cs)

/-- Remove trailing characters satisfying `p`. -/
def dropRightWhile (p : Char → Bool) (l : List Char) : List Char :=
  (l.reverse.dropWhile p).reverse

/-- JavaScript `String.prototype.trim`: strip leading and trailing
whitespace. -/
def trimChars (l : List Char) : List Char :=
  dropRightWhile (fun c => isWs c) (l.dropWhile (fun c => isWs c))

/-- The whitespace/punctuation normalization of `formatAudioPenStyle`
(aiFormatter.ts lines 186-190): collapse whitespace, remove space before
punctuation, add space after punctuation, trim. -/
def normalizeText (t : List Char) : List Char :=
  trimChars (addSpAfter (rmSpBefore (collapseWs t)))

/-- Adjacent-pair invariant: a whitespace character is never followed by
another whitespace character. -/
def wsIsolated (a b : Char) : Prop := isWs a = true → isWs b = false

/-- Adjacent-pair invariant: a whitespace character is followed neither by
whitespace nor by punctuation. -/
def wsTight (a b : Char) : Prop :=
  isWs a = true → isWs b = false ∧ isPunct b = false

/-- Every whitespace character of the list is the plain space `' '`. -/
def spacesOnly (l : List Char) : Prop := ∀ c ∈ l, isWs c = true → c = ' '

/-! ## Text structurer (src/lib/aiFormatter.ts)

The remote Deepseek calls (`formatWithDeepseek`, `generateTitleWithDeepseek`)
are network effects; following the spec's error model they are represented
by an `Except` value supplied by the environment: `Except.ok s` is a
successful completion `s`, `Except.error e` any failure (non-2xx status,
malformed body, transport error).  Everything else is translated from the
TypeScript. -/

/-- Lowercasing as performed by `String.prototype.toLowerCase` (ASCII). -/
def toLowerStr (l : List Char) : List Char := l.map Char.toLower

/-- `re.test(s)` for a regex that is an alternation of literal words:
true iff some word occurs as a substring. -/
def matchesAny (words : List (List Char)) (l : List Char) : Bool :=
  words.any (fun w => decide (w <:+: l))

/-- Words of the `isMeeting` regex (aiFormatter.ts line 203). -/
def meetingWords : List (List Char) :=
  ["meeting", "discuss", "agenda", "action", "follow-up", "team", "project"].map
    String.data

/-- Words of the `isList` regex (line 204). -/
def listWords : List (List Char) :=
  ["first", "second", "third", "then", "next", "also", "additionally", "finally",
    "pehle", "phir", "baad", "uske"].map String.data

/-- Words of the `hasActionItems` regex (line 206). -/
def actionWords : List (List Char) :=
  ["need to", "should", "must", "will", "going to", "plan to", "karna", "hoga",
    "chahiye"].map String.data

/-- Words of the action-item regex inside `formatMeetingStyle` (line 266). -/
def actionWordsMeeting : List (List Char) :=
  ["need to", "should", "must", "will", "going to", "plan to", "action", "task",
    "todo", "karna", "hoga", "chahiye"].map String.data

/-- Words of the discussion regex inside `formatMeetingStyle` (line 268). -/
def discussWords : List (List Char) :=
  ["discuss", "talk", "review", "decide", "decided", "agreed", "baat",
    "charcha"].map String.data

/-- The transition words of `isTopicChange` (line 311). -/
def transitionWords : List (List Char) :=
  ["however", "but", "also", "additionally", "furthermore", "meanwhile", "next",
    "then", "now", "lekin", "par", "aur", "phir"].map String.data

/-- The pronoun alternatives of the strip regex `/^(I|we|they|you|main|hum)\s+/i`
(line 267), in the order the alternation tries them. -/
def pronounWords : List (List Char) :=
  ["i", "we", "they", "you", "main", "hum"].map String.data

/-- `sentence.replace(/^(I|we|they|you|main|hum)\s+/i, '')`: if the sentence
starts (case-insensitively) with one of the pronouns followed by at least one
whitespace character, remove the pronoun and the whole greedy whitespace
run. -/
def stripLeadingPronoun (s : List Char) : List Char :=
  match pronounWords.find? (fun p =>
      toLowerStr (s.take p.length) == p &&
        (match (s.drop p.length).head? with
         | some c => isWs c
         | none => false)) with
  | some p => (s.drop p.length).dropWhile (fun c => isWs c)
  | none => s

/-- `cleaned.split(/(?<=[.!?])\s+/)`: split at each maximal whitespace run
whose immediately preceding character is a sentence terminator.  `acc` holds
the reversed current chunk; `inSep` is true while consuming the greedy
whitespace of a separator already begun. -/
def splitSentencesAux (inSep : Bool) (acc : List Char) :
    List Char → List (List Char)
  | [] => if inSep then [[]] else [acc.reverse]
  | c :: cs =>
    if inSep then
      if isWs c then splitSentencesAux true [] cs
      else splitSentencesAux false [c] cs
    else if isWs c then
      match acc.head? with
      | some p =>
        if isTerm p then acc.reverse :: splitSentencesAux true [] cs
        else splitSentencesAux false (c :: acc) cs
      | none => splitSentencesAux false (c :: acc) cs
    else splitSentencesAux false (c :: acc) cs

/-- Sentence splitting of `formatAudioPenStyle` (lines 193-196). -/
def splitSentences (l : List Char) : List (List Char) :=
  ((splitSentencesAux false [] l).map trimChars).filter (fun s => !s.isEmpty)

/-- `isTopicChange` (lines 310-314): the second sentence starts with a
transition word (the first sentence is not inspected). -/
def isTopicChange (s1 s2 : List Char) : Bool :=
  transitionWords.any (fun w => decide (w <+: toLowerStr s2))

/-- `sentences.join(' ')`. -/
def joinSpace (sentences : List (List Char)) : List Char :=
  List.intercalate [' '] sentences

/-- The paragraph loop of `formatNaturalStyle` (lines 219-238): sentences
accumulate into `para`; flush after four sentences, before a topic change,
and at the end. -/
def naturalAux (para : List (List Char)) : List (List Char) → List Char
  | [] => []
  | [s] => joinSpace (para ++ [s]) ++ '\n' :: ['\n']
  | s :: s2 :: rest =>
    if 4 ≤ (para ++ [s]).length || isTopicChange s s2 then
      joinSpace (para ++ [s]) ++ '\n' :: '\n' :: naturalAux [] (s2 :: rest)
    else naturalAux (para ++ [s]) (s2 :: rest)

/-- `formatNaturalStyle` (lines 219-239). -/
def formatNaturalStyle (sentences : List (List Char)) : List Char :=
  trimChars (naturalAux [] sentences)

/-- `s.replace(/^[-•*]\s*/, '')`: drop one leading list-marker character and
the following whitespace run. -/
def stripListMarker (s : List Char) : List Char :=
  match s with
  | [] => []
  | c :: cs =>
    if c = '-' || c = '•' || c = '*' then cs.dropWhile (fun d => isWs d)
    else c :: cs

/-- `formatListStyle` (lines 242-252). -/
def formatListStyle (sentences : List (List Char)) : List Char :=
  List.intercalate ['\n']
    (sentences.map (fun s => '•' :: ' ' :: trimChars (stripListMarker s)))

/-- The classification loop of `formatMeetingStyle` (lines 262-273): each
sentence goes to exactly one of (discussion, actionItems, questions, other),
checked in the order question, action item, discussion, other. -/
def meetingBuckets : List (List Char) →
    List (List Char) × List (List Char) × List (List Char) × List (List Char)
  | [] => ([], [], [], [])
  | s :: rest =>
    let (d, a, q, o) := meetingBuckets rest
    if s.contains '?' then (d, a, s :: q, o)
    else if matchesAny actionWordsMeeting (toLowerStr s) then
      (d, stripLeadingPronoun s :: a, q, o)
    else if matchesAny discussWords (toLowerStr s) then (s :: d, a, q, o)
    else (d, a, q, s :: o)

/-- `• item\n` lines for one section. -/
def bulletLines (items : List (List Char)) : List Char :=
  items.foldl (fun acc it => acc ++ '•' :: ' ' :: it ++ ['\n']) []

/-- `formatMeetingStyle` (lines 255-307). -/
def formatMeetingStyle (sentences : List (List Char)) : List Char :=
  let (d, a, q, o) := meetingBuckets sentences
  let r1 := if d.isEmpty then []
    else "Key Discussion Points:\n\n".data ++ bulletLines d ++ ['\n']
  let r2 := if a.isEmpty then []
    else "Action Items:\n\n".data ++ bulletLines a ++ ['\n']
  let r3 := if q.isEmpty then []
    else "Questions:\n\n".data ++ bulletLines q ++ ['\n']
  let r4 := if o.isEmpty then []
    else "Notes:\n\n".data ++ o.foldl (fun acc n => acc ++ n ++ '\n' :: ['\n']) []
  let result := trimChars (r1 ++ r2 ++ r3 ++ r4)
  if result.isEmpty then joinSpace sentences else result

/-- `formatAudioPenStyle` (lines 180-216): normalize, split into sentences,
detect the content type and dispatch. -/
def formatAudioPenStyle (text : List Char) : List Char :=
  if trimChars text = [] then text
  else
    let cleaned := normalizeText text
    let sentences := splitSentences cleaned
    if sentences.isEmpty then cleaned
    else
      let lower := toLowerStr cleaned
      let isMeeting := matchesAny meetingWords lower
      let isList := matchesAny listWords lower
      let hasActionItems := matchesAny actionWords lower
      if isMeeting && (hasActionItems || isList) then formatMeetingStyle sentences
      else if isList || 5 < sentences.length then formatListStyle sentences
      else formatNaturalStyle sentences

/-- `text.split(/[.!?]+/)`: split at each maximal run of sentence
terminators (`formatBasic`, line 319).  `inSep` is true while consuming the
rest of a terminator run already begun. -/
def splitTermsAux (inSep : Bool) (acc : List Char) : List Char → List (List Char)
  | [] => if inSep then [[]] else [acc.reverse]
  | c :: cs =>
    if inSep then
      if isTerm c then splitTermsAux true [] cs
      else splitTermsAux false [c] cs
    else if isTerm c then acc.reverse :: splitTermsAux true [] cs
    else splitTermsAux false (c :: acc) cs

/-- `formatBasic` (lines 316-323): bullet every non-blank fragment between
sentence terminators. -/
def formatBasic (text : List Char) : List Char :=
  List.intercalate ['\n']
    (((splitTermsAux false [] text).filter
        (fun s => !(trimChars s).isEmpty)).map
      (fun s => '•' :: ' ' :: trimChars s))

/-- `formatWithAI` (lines 4-18): try the remote call; on failure fall back
to `formatAudioPenStyle`; if the heuristic itself throws (modelled by the
oracle flag `heuristicFails`), fall back to `formatBasic`. -/
def formatWithAI (remoteResult : Except (List Char) (List Char))
    (heuristicFails : Bool) (rawText : List Char) : List Char :=
  match remoteResult with
  | Except.ok formatted => formatted
  | Except.error _ =>
    if heuristicFails then formatBasic rawText else formatAudioPenStyle rawText

/-! ## Title generation (src/lib/aiFormatter.ts lines 21-35 and 172-177) -/

/-- `.replace(/[\r\n]+/g, ' ')`: each maximal run of carriage returns and
line feeds becomes one space. -/
def collapseCRLF : List Char → List Char
  | [] => []
  | c :: cs =>
    if c = '\r' || c = '\n' then
      match cs with
      | [] => [' ']
      | d :: _ =>
        if d = '\r' || d = '\n' then collapseCRLF cs else ' ' :: collapseCRLF cs
    else c :: collapseCRLF cs

/-- The character class `["'\s]` stripped from both ends by `sanitizeTitle`. -/
def isQuoteWs (c : Char) : Bool :=
  c = '"' || c = '\'' || isWs c

/-- `sanitizeTitle` (lines 172-177): collapse CR/LF runs to a space, strip
leading and trailing quote/whitespace characters, trim. -/
def sanitizeTitle (title : List Char) : List Char :=
  trimChars
    (dropRightWhile (fun c => isQuoteWs c)
      ((collapseCRLF title).dropWhile (fun c => isQuoteWs c)))

/-- `cleaned.match(/[^.!?]+[.!?]?/)`: the first maximal run of
non-terminator characters, together with the single following terminator if
present; `[]` when the string consists only of terminators. -/
def firstSentenceMatch : List Char → List Char
  | [] => []
  | c :: cs =>
    if isTerm c then firstSentenceMatch cs
    else
      (c :: cs).takeWhile (fun d => !isTerm d) ++
        ((c :: cs).dropWhile (fun d => !isTerm d)).take 1

/-- `generateTitle` (lines 21-35).  The remote Deepseek title call is the
`remote` parameter: `Except.ok title` a successful response, `Except.error`
any failure; the fallback branch is the catch-block heuristic. -/
def generateTitle (remote : Except (List Char) (List Char)) (text : List Char) :
    List Char :=
  if trimChars text = [] then []
  else
    match remote with
    | Except.ok title => sanitizeTitle title
    | Except.error _ =>
      let cleaned := trimChars (collapseWs (trimChars text))
      let firstSentence := trimChars (firstSentenceMatch cleaned)
      let truncated :=
        if 60 < firstSentence.length then trimChars (firstSentence.take 57) ++ ['…']
        else firstSentence
      sanitizeTitle (if truncated = [] then cleaned.take 60 else truncated)

/-! ## Theorems -/

theorem findOverlap_eq_some {p i : List Char} {n k : Nat}
    (h : findOverlap p i n = some k) :
    1 ≤ k ∧ k ≤ n ∧ p.drop (p.length - k) = i.take k := by
  induction n with
  | zero => simp [findOverlap] at h
  | succ m ih =>
    unfold findOverlap at h
    split at h
    · cases h
      exact ⟨by omega, le_refl _, by assumption⟩
    · obtain ⟨h1, h2, h3⟩ := ih h
      exact ⟨h1, by omega, h3⟩

theorem findOverlap_maximal {p i : List Char} {n k : Nat}
    (h : findOverlap p i n = some k) {j : Nat} (hkj : k < j) (hjn : j ≤ n) :
    p.drop (p.length - j) ≠ i.take j := by
  induction n with
  | zero => simp [findOverlap] at h
  | succ m ih =>
    unfold findOverlap at h
    split at h
    · cases h; omega
    · rcases Nat.lt_or_ge j (m + 1) with hj | hj
      · exact ih h (by omega)
      · have : j = m + 1 := by omega
        subst this
        assumption

theorem findOverlap_eq_none {p i : List Char} {n : Nat}
    (h : findOverlap p i n = none) {k : Nat} (h1 : 1 ≤ k) (h2 : k ≤ n) :
    p.drop (p.length - k) ≠ i.take k := by
  induction n with
  | zero => omega
  | succ m ih =>
    unfold findOverlap at h
    split at h
    · cases h
    · rcases Nat.lt_or_ge k (m + 1) with hk | hk
      · exact ih h (by omega)
      · have : k = m + 1 := by omega
        subst this
        assumption

/-! ### Helper lemmas about the branches of `mergeTranscripts` -/

theorem previous_infix_merge (p i : List Char) : p <:+: mergeTranscripts p i := by
  unfold mergeTranscripts
  split
  · exact List.infix_refl p
  split
  · rename_i h
    rw [h]
    exact List.nil_infix
  split
  · rename_i h
    exact h.isInfix
  split
  · rename_i h
    exact h
  split
  · exact List.infix_refl p
  split
  · exact (List.prefix_append p _).isInfix
  · exact ((List.prefix_append p _).trans (List.prefix_append _ i)).isInfix

theorem incoming_infix_merge (p i : List Char) : i <:+: mergeTranscripts p i := by
  unfold mergeTranscripts
  split
  · rename_i h
    rw [h]
    exact List.nil_infix
  split
  · exact List.infix_refl i
  split
  · exact List.infix_refl i
  split
  · exact List.infix_refl i
  split
  · rename_i h
    exact h
  split
  · rename_i k hk
    obtain ⟨h1, h2, h3⟩ := findOverlap_eq_some hk
    refine List.IsSuffix.isInfix ⟨p.take (p.length - k), ?_⟩
    calc p.take (p.length - k) ++ i
        = p.take (p.length - k) ++ (i.take k ++ i.drop k) := by
          rw [List.take_append_drop]
      _ = p.take (p.length - k) ++ (p.drop (p.length - k) ++ i.drop k) := by
          rw [h3]
      _ = (p.take (p.length - k) ++ p.drop (p.length - k)) ++ i.drop k := by
          rw [List.append_assoc]
      _ = p ++ i.drop k := by
          rw [List.take_append_drop]
  · exact (List.suffix_append _ i).isInfix

/-! ### Claim theorems about the reconciler -/

/-- C1: for non-empty `previous` and `incoming`, if `incoming` contains
`previous` as a substring (in particular when it starts with it),
`mergeTranscripts previous incoming` returns `incoming`; otherwise, if
`previous` contains `incoming` as a substring, it returns `previous`
unchanged. -/
theorem merge_containment_priority (p i : List Char) (hp : p ≠ []) (hi : i ≠ []) :
    (p <:+: i → mergeTranscripts p i = i) ∧
    (¬ p <:+: i → i <:+: p → mergeTranscripts p i = p) := by
  constructor
  · intro h
    unfold mergeTranscripts
    rw [if_neg hi, if_neg hp]
    by_cases hpre : p <+: i
    · rw [if_pos hpre]
    · rw [if_neg hpre, if_pos h]
  · intro hni hin
    unfold mergeTranscripts
    rw [if_neg hi, if_neg hp, if_neg (fun hpre => hni hpre.isInfix), if_neg hni,
      if_pos hin]

/-- Witness for C1 at concrete inputs: `"ab"` is a (non-prefix) substring of
`"xaby"`, so the merge returns the containing string in both directions. -/
theorem merge_containment_priority_witness :
    mergeTranscripts "ab".data "xaby".data = "xaby".data ∧
    mergeTranscripts "xaby".data "ab".data = "xaby".data :=
  ⟨(merge_containment_priority "ab".data "xaby".data (by decide) (by decide)).1
      (by decide),
   (merge_containment_priority "xaby".data "ab".data (by decide) (by decide)).2
      (by decide) (by decide)⟩

/-- C2 (amended): for non-empty `previous`/`incoming` where neither contains
the other, if some suffix of `previous` equals a prefix of `incoming` then
the merge appends only the remainder of `incoming` after the longest such
overlap; if no overlap exists the two are concatenated with a single space
inserted unless `previous` already ends with the space character `' '`
(the code tests `endsWith(' ')`, not arbitrary whitespace).  The two
concrete examples of the claim hold. -/
theorem merge_overlap_and_separator (p i : List Char) (hp : p ≠ []) (hi : i ≠ [])
    (h1 : ¬ p <:+: i) (h2 : ¬ i <:+: p) :
    ((∃ k, overlapAt p i k) →
      ∃ K, overlapAt p i K ∧ (∀ j, overlapAt p i j → j ≤ K) ∧
        mergeTranscripts p i = p ++ i.drop K) ∧
    ((∀ k, ¬ overlapAt p i k) →
      mergeTranscripts p i = p ++ (if p.getLast? = some ' ' then [] else [' ']) ++ i) ∧
    mergeTranscripts "hello wor".data "world peace".data = "hello world peace".data ∧
    mergeTranscripts "foo".data "bar".data = "foo bar".data := by
  have hmerge : mergeTranscripts p i =
      match findOverlap p i (min p.length i.length) with
      | some k => p ++ i.drop k
      | none => p ++ (if p.getLast? = some ' ' then [] else [' ']) ++ i := by
    unfold mergeTranscripts
    rw [if_neg hi, if_neg hp, if_neg (fun hpre => h1 hpre.isInfix), if_neg h1, if_neg h2]
  refine ⟨?_, ?_, by decide, by decide⟩
  · rintro ⟨k, hk⟩
    cases hfo : findOverlap p i (min p.length i.length) with
    | none =>
      exact absurd hk.2.2 (findOverlap_eq_none hfo hk.1 hk.2.1)
    | some K =>
      obtain ⟨hK1, hK2, hK3⟩ := findOverlap_eq_some hfo
      refine ⟨K, ⟨hK1, hK2, hK3⟩, ?_, by rw [hmerge, hfo]⟩
      intro j hj
      by_contra hlt
      exact findOverlap_maximal hfo (by omega) hj.2.1 hj.2.2
  · intro hnone
    cases hfo : findOverlap p i (min p.length i.length) with
    | none => rw [hmerge, hfo]
    | some K =>
      obtain ⟨hK1, hK2, hK3⟩ := findOverlap_eq_some hfo
      exact absurd ⟨hK1, hK2, hK3⟩ (hnone K)

/-- Witness for C2: applying the amended theorem at `"foo"`/`"bar"` (no
containment in either direction) recovers the concrete no-overlap example. -/
theorem merge_overlap_and_separator_witness :
    mergeTranscripts "foo".data "bar".data = "foo bar".data :=
  (merge_overlap_and_separator "foo".data "bar".data (by decide) (by decide)
    (by decide) (by decide)).2.2.2

/-- C2 counterexample: `previous = "foo\t"` ends with the whitespace
character `'\t'`, `incoming = "bar"`, neither contains the other and no
suffix/prefix overlap exists, so the claim as stated predicts the plain
concatenation `"foo\tbar"` (no separator since `previous` ends with
whitespace); the code instead inserts a space because `endsWith(' ')` only
tests the space character, producing `"foo\t bar"`. -/
theorem merge_separator_whitespace_counterexample :
    "foo\t".data ≠ [] ∧ "bar".data ≠ [] ∧
    ¬ "foo\t".data <:+: "bar".data ∧ ¬ "bar".data <:+: "foo\t".data ∧
    (∀ k, ¬ overlapAt "foo\t".data "bar".data k) ∧
    "foo\t".data.getLast? = some '\t' ∧ isWs '\t' = true ∧
    mergeTranscripts "foo\t".data "bar".data ≠ "foo\t".data ++ "bar".data ∧
    mergeTranscripts "foo\t".data "bar".data = "foo\t bar".data := by
  refine ⟨by decide, by decide, by decide, by decide, ?_, by decide, by decide,
    by decide, by decide⟩
  intro k hk
  have hbound : ∀ k < 4, ¬ overlapAt "foo\t".data "bar".data k := by decide
  have hle : k ≤ min "foo\t".data.length "bar".data.length := hk.2.1
  have : k < 4 := by
    simp only [List.length] at hle
    omega
  exact hbound k this hk

/-- C3: previously confirmed text survives every merge: `previous` is a
substring of `mergeTranscripts previous incoming`, and consequently the
accumulated buffer obtained by folding any sequence of update events (in
arrival order) over an initial buffer always contains that initial buffer;
only the explicit session reset (`accumulatedTranscriptRef.current = ''`,
page.tsx line 102) empties it. -/
theorem merge_never_deletes_confirmed_text :
    (∀ p i, p <:+: mergeTranscripts p i) ∧
    (∀ (events : List (List Char)) (b : List Char),
      b <:+: events.foldl mergeTranscripts b) := by
  refine ⟨previous_infix_merge, ?_⟩
  intro events
  induction events with
  | nil => exact fun b => List.infix_refl b
  | cons e es ih =>
    intro b
    exact (previous_infix_merge b e).trans (ih (mergeTranscripts b e))

/-- C4: an empty incoming fragment leaves the buffer unchanged and the first
fragment of a session becomes the buffer verbatim. -/
theorem merge_empty_identity (p : List Char) :
    mergeTranscripts p [] = p ∧ mergeTranscripts [] p = p := by
  constructor
  · simp [mergeTranscripts]
  · unfold mergeTranscripts
    by_cases h : p = []
    · simp [h]
    · rw [if_neg h, if_pos rfl]

theorem findOverlap_duplicates (p i : List Char) (n : Nat) :
    findOverlap p i n = RecordingButton.findOverlap p i n := by
  induction n with
  | zero => rfl
  | succ m ih =>
    unfold findOverlap RecordingButton.findOverlap
    rw [ih]

/-- C9: the two textually duplicated `mergeTranscripts` definitions (recording
page and RecordingButton component) compute the same function. -/
theorem merge_duplicates_agree (p i : List Char) :
    mergeTranscripts p i = RecordingButton.mergeTranscripts p i := by
  unfold mergeTranscripts RecordingButton.mergeTranscripts
  rw [findOverlap_duplicates]

/-- Witness for C9 at a concrete overlapping pair. -/
theorem merge_duplicates_agree_witness :
    mergeTranscripts "hello wor".data "world peace".data =
      RecordingButton.mergeTranscripts "hello wor".data "world peace".data :=
  merge_duplicates_agree "hello wor".data "world peace".data

/-- C10: no content of an incoming fragment is ever dropped: `incoming` is a
substring of `mergeTranscripts previous incoming` for all inputs. -/
theorem merge_never_drops_incoming (p i : List Char) :
    i <:+: mergeTranscripts p i :=
  incoming_infix_merge p i

/-! ### Character-class facts -/

theorem not_ws_of_punct {c : Char} (h : isPunct c = true) : isWs c = false := by
  simp only [isPunct, Bool.or_eq_true, decide_eq_true_eq] at h
  rcases h with ((h | h) | h) | h <;> subst h <;> rfl

theorem not_punct_of_ws {c : Char} (h : isWs c = true) : isPunct c = false := by
  simp only [isWs, Bool.or_eq_true, decide_eq_true_eq] at h
  rcases h with ((((h | h) | h) | h) | h) | h <;> subst h <;> rfl

theorem wsTight.isolated {a b : Char} (h : wsTight a b) : wsIsolated a b :=
  fun hw => (h hw).1

theorem spacesOnly_nil : spacesOnly [] := by
  intro c hc
  cases hc

theorem spacesOnly_cons {c : Char} {l : List Char} (h : spacesOnly (c :: l)) :
    spacesOnly l :=
  fun d hd => h d (List.mem_cons_of_mem c hd)

/-! ### Structural lemmas for the three replacement passes -/

theorem collapseWs_cons_nonws {c : Char} {l : List Char} (h : isWs c = false) :
    collapseWs (c :: l) = c :: collapseWs l := by
  simp [collapseWs, h]

theorem collapseWs_singleton_ws {c : Char} (h : isWs c = true) :
    collapseWs [c] = [' '] := by
  simp [collapseWs, h]

theorem collapseWs_cons_ws_ws {c d : Char} {l : List Char} (hc : isWs c = true)
    (hd : isWs d = true) : collapseWs (c :: d :: l) = collapseWs (d :: l) := by
  simp [collapseWs, hc, hd]

theorem collapseWs_cons_ws_nonws {c d : Char} {l : List Char} (hc : isWs c = true)
    (hd : isWs d = false) :
    collapseWs (c :: d :: l) = ' ' :: collapseWs (d :: l) := by
  simp [collapseWs, hc, hd]

theorem rmSpBefore_cons_nonws {c : Char} {l : List Char} (h : isWs c = false) :
    rmSpBefore (c :: l) = c :: rmSpBefore l := by
  simp [rmSpBefore, h]

theorem rmSpBefore_singleton_ws {c : Char} (h : isWs c = true) :
    rmSpBefore [c] = [c] := by
  simp [rmSpBefore, h]

theorem rmSpBefore_cons_ws_punct {c d : Char} {l : List Char} (hc : isWs c = true)
    (hl : l.head? = some d) (hdw : isWs d = false) (hdp : isPunct d = true) :
    rmSpBefore (c :: l) = rmSpBefore l := by
  cases l with
  | nil => cases hl
  | cons e es =>
    cases hl
    simp [rmSpBefore, hc, List.dropWhile_cons, hdw, hdp]

theorem rmSpBefore_cons_ws_nonpunct {c d : Char} {l : List Char} (hc : isWs c = true)
    (hl : l.head? = some d) (hdw : isWs d = false) (hdp : isPunct d = false) :
    rmSpBefore (c :: l) = c :: rmSpBefore l := by
  cases l with
  | nil => cases hl
  | cons e es =>
    cases hl
    simp [rmSpBefore, hc, List.dropWhile_cons, hdw, hdp]

theorem addSpAfter_singleton (c : Char) : addSpAfter [c] = [c] := rfl

theorem addSpAfter_cons_cons_pos {c1 c2 : Char} {l : List Char}
    (h1 : isPunct c1 = true) (h2 : isWs c2 = false) :
    addSpAfter (c1 :: c2 :: l) = c1 :: ' ' :: c2 :: addSpAfter l := by
  simp [addSpAfter, h1, h2]

theorem addSpAfter_cons_cons_neg {c1 c2 : Char} {l : List Char}
    (h : (isPunct c1 && !isWs c2) = false) :
    addSpAfter (c1 :: c2 :: l) = c1 :: addSpAfter (c2 :: l) := by
  simp only [addSpAfter, h]
  simp

theorem addSpAfter_cons_nonpunct {c : Char} {l : List Char} (h : isPunct c = false) :
    addSpAfter (c :: l) = c :: addSpAfter l := by
  cases l with
  | nil => rfl
  | cons d ds => simp [addSpAfter, h]

theorem addSpAfter_head? (l : List Char) : (addSpAfter l).head? = l.head? := by
  match l with
  | [] => rfl
  | [c] => rfl
  | c1 :: c2 :: cs =>
    by_cases h : (isPunct c1 && !isWs c2) = true
    · simp only [addSpAfter, h]
      rfl
    · rw [addSpAfter_cons_cons_neg (by simpa using h)]
      rfl

theorem addSpAfter_eq_nil_iff (l : List Char) : addSpAfter l = [] ↔ l = [] := by
  match l with
  | [] => simp [addSpAfter]
  | [c] => simp [addSpAfter]
  | c1 :: c2 :: cs =>
    constructor
    · intro h
      by_cases hc : (isPunct c1 && !isWs c2) = true
      · rw [show addSpAfter (c1 :: c2 :: cs) = c1 :: ' ' :: c2 :: addSpAfter cs by
          simp [addSpAfter, hc]] at h
        cases h
      · rw [addSpAfter_cons_cons_neg (by simpa using hc)] at h
        cases h
    · intro h
      cases h

theorem addSpAfter_getLast? (l : List Char) : (addSpAfter l).getLast? = l.getLast? := by
  induction l using addSpAfter.induct with
  | case1 => rfl
  | case2 c => rfl
  | case3 c1 c2 cs h ih =>
    obtain ⟨h1, h2⟩ : isPunct c1 = true ∧ isWs c2 = false := by simpa using h
    rw [addSpAfter_cons_cons_pos h1 h2]
    cases hcs : cs with
    | nil => rfl
    | cons e es =>
      have hne : addSpAfter (e :: es) ≠ [] := by
        intro hcontra
        cases ((addSpAfter_eq_nil_iff (e :: es)).mp hcontra)
      obtain ⟨y, ys, hys⟩ := List.exists_cons_of_ne_nil hne
      rw [hcs] at ih
      rw [hys] at ih ⊢
      simp only [List.getLast?_cons_cons]
      exact ih
  | case4 c1 c2 cs h ih =>
    rw [addSpAfter_cons_cons_neg (by simpa using h)]
    have hne : addSpAfter (c2 :: cs) ≠ [] := by
      intro hcontra
      cases ((addSpAfter_eq_nil_iff (c2 :: cs)).mp hcontra)
    obtain ⟨y, ys, hys⟩ := List.exists_cons_of_ne_nil hne
    rw [hys] at ih ⊢
    simp only [List.getLast?_cons_cons]
    exact ih

theorem addSpAfter_append_ws {w : Char} (hw : isWs w = true) (l : List Char) :
    addSpAfter (l ++ [w]) = addSpAfter l ++ [w] := by
  induction l using addSpAfter.induct with
  | case1 => rfl
  | case2 c =>
    show addSpAfter [c, w] = [c, w]
    rw [addSpAfter_cons_cons_neg (by simp [hw])]
    rfl
  | case3 c1 c2 cs h ih =>
    obtain ⟨h1, h2⟩ : isPunct c1 = true ∧ isWs c2 = false := by simpa using h
    show addSpAfter (c1 :: c2 :: (cs ++ [w])) = _
    rw [addSpAfter_cons_cons_pos h1 h2, ih, addSpAfter_cons_cons_pos h1 h2]
    simp
  | case4 c1 c2 cs h ih =>
    have h' : (isPunct c1 && !isWs c2) = false := by simpa using h
    show addSpAfter (c1 :: c2 :: (cs ++ [w])) = _
    rw [addSpAfter_cons_cons_neg h', show c2 :: (cs ++ [w]) = (c2 :: cs) ++ [w] by rfl,
      ih, addSpAfter_cons_cons_neg h']
    simp

/-! ### The cleaning passes establish and preserve the whitespace invariants -/

theorem spacesOnly_collapseWs (t : List Char) : spacesOnly (collapseWs t) := by
  induction t with
  | nil => exact spacesOnly_nil
  | cons c cs ih =>
    by_cases hc : isWs c = true
    · cases cs with
      | nil =>
        rw [collapseWs_singleton_ws hc]
        intro d hd _
        rcases List.mem_singleton.mp hd with h
        exact h
      | cons d ds =>
        by_cases hd : isWs d = true
        · rw [collapseWs_cons_ws_ws hc hd]
          exact ih
        · rw [collapseWs_cons_ws_nonws hc (by simpa using hd)]
          intro e he hew
          rcases List.mem_cons.mp he with h | h
          · exact h
          · exact ih e h hew
    · rw [collapseWs_cons_nonws (by simpa using hc)]
      intro e he hew
      rcases List.mem_cons.mp he with h | h
      · subst h
        exact absurd hew (by simpa using hc)
      · exact ih e h hew

theorem chain_collapseWs (t : List Char) :
    List.Chain' wsIsolated (collapseWs t) := by
  induction t with
  | nil => simp [collapseWs]
  | cons c cs ih =>
    by_cases hc : isWs c = true
    · cases cs with
      | nil =>
        rw [collapseWs_singleton_ws hc]
        simp
      | cons d ds =>
        by_cases hd : isWs d = true
        · rw [collapseWs_cons_ws_ws hc hd]
          exact ih
        · have hd' : isWs d = false := by simpa using hd
          rw [collapseWs_cons_ws_nonws hc hd']
          rw [List.chain'_cons']
          refine ⟨?_, ih⟩
          intro y hy
          rw [collapseWs_cons_nonws hd'] at hy
          cases hy
          intro _
          exact hd'
    · have hc' : isWs c = false := by simpa using hc
      rw [collapseWs_cons_nonws hc']
      rw [List.chain'_cons']
      refine ⟨?_, ih⟩
      intro y _ hw
      exact absurd hw (by simp [hc'])

theorem rmSpBefore_sublist (l : List Char) : List.Sublist (rmSpBefore l) l := by
  induction l with
  | nil => simp [rmSpBefore]
  | cons c cs ih =>
    by_cases hc : isWs c = true
    · simp only [rmSpBefore, if_pos hc]
      cases hh : (cs.dropWhile (fun d => isWs d)).head? with
      | none =>
        exact List.Sublist.cons₂ c ih
      | some p =>
        show (if isPunct p = true then rmSpBefore cs
          else c :: rmSpBefore cs).Sublist (c :: cs)
        by_cases hp : isPunct p = true
        · rw [if_pos hp]
          exact List.Sublist.cons c ih
        · rw [if_neg hp]
          exact List.Sublist.cons₂ c ih
    · rw [rmSpBefore_cons_nonws (by simpa using hc)]
      exact List.Sublist.cons₂ c ih

theorem spacesOnly_rmSpBefore {l : List Char} (h : spacesOnly l) :
    spacesOnly (rmSpBefore l) :=
  fun c hc hw => h c (List.Sublist.subset (rmSpBefore_sublist l) hc) hw

theorem chain_rmSpBefore {l : List Char} (h : List.Chain' wsIsolated l) :
    List.Chain' wsTight (rmSpBefore l) := by
  induction l with
  | nil => simp [rmSpBefore]
  | cons c cs ih =>
    by_cases hc : isWs c = true
    · cases cs with
      | nil =>
        rw [rmSpBefore_singleton_ws hc]
        simp
      | cons d ds =>
        have hd : isWs d = false := (List.chain'_cons.mp h).1 hc
        by_cases hdp : isPunct d = true
        · rw [rmSpBefore_cons_ws_punct hc (rfl : (d :: ds).head? = some d) hd hdp]
          exact ih (List.chain'_cons.mp h).2
        · have hdp' : isPunct d = false := by simpa using hdp
          rw [rmSpBefore_cons_ws_nonpunct hc (rfl : (d :: ds).head? = some d) hd hdp']
          rw [rmSpBefore_cons_nonws hd]
          rw [List.chain'_cons]
          constructor
          · intro _
            exact ⟨hd, hdp'⟩
          · rw [← rmSpBefore_cons_nonws hd]
            exact ih (List.chain'_cons.mp h).2
    · have hc' : isWs c = false := by simpa using hc
      rw [rmSpBefore_cons_nonws hc']
      rw [List.chain'_cons']
      refine ⟨?_, ih (List.Chain'.tail h)⟩
      intro y _ hw
      exact absurd hw (by simp [hc'])

theorem mem_addSpAfter {c : Char} {l : List Char} (h : c ∈ addSpAfter l) :
    c ∈ l ∨ c = ' ' := by
  induction l using addSpAfter.induct with
  | case1 => cases h
  | case2 d =>
    rcases List.mem_singleton.mp h with h'
    exact Or.inl (by simp [h'])
  | case3 c1 c2 cs hcond ih =>
    obtain ⟨h1, h2⟩ : isPunct c1 = true ∧ isWs c2 = false := by simpa using hcond
    rw [addSpAfter_cons_cons_pos h1 h2] at h
    rcases List.mem_cons.mp h with h' | h'
    · exact Or.inl (by simp [h'])
    rcases List.mem_cons.mp h' with h'' | h''
    · exact Or.inr h''
    rcases List.mem_cons.mp h'' with h3 | h3
    · exact Or.inl (by simp [h3])
    · rcases ih h3 with h4 | h4
      · exact Or.inl (by simp [h4])
      · exact Or.inr h4
  | case4 c1 c2 cs hcond ih =>
    rw [addSpAfter_cons_cons_neg (by simpa using hcond)] at h
    rcases List.mem_cons.mp h with h' | h'
    · exact Or.inl (by simp [h'])
    · rcases ih h' with h4 | h4
      · exact Or.inl (by simp [List.mem_cons.mp h4])
      · exact Or.inr h4

theorem spacesOnly_addSpAfter {l : List Char} (h : spacesOnly l) :
    spacesOnly (addSpAfter l) := by
  intro c hc hw
  rcases mem_addSpAfter hc with h' | h'
  · exact h c h' hw
  · exact h'

theorem chain_addSpAfter {l : List Char} (h : List.Chain' wsIsolated l) :
    List.Chain' wsIsolated (addSpAfter l) := by
  induction l using addSpAfter.induct with
  | case1 => simp [addSpAfter]
  | case2 c => simp [addSpAfter]
  | case3 c1 c2 cs hcond ih =>
    obtain ⟨h1, h2⟩ : isPunct c1 = true ∧ isWs c2 = false := by simpa using hcond
    rw [addSpAfter_cons_cons_pos h1 h2]
    rw [List.chain'_cons']
    constructor
    · intro y hy
      cases hy
      intro hw
      exact absurd hw (by simp [not_ws_of_punct h1])
    rw [List.chain'_cons']
    constructor
    · intro y hy
      cases hy
      intro _
      exact h2
    rw [List.chain'_cons']
    constructor
    · intro y hy
      rw [addSpAfter_head?] at hy
      have := (List.chain'_cons'.mp (List.Chain'.tail h)).1 y hy
      exact this
    · exact ih ((List.Chain'.tail h).tail)
  | case4 c1 c2 cs hcond ih =>
    rw [addSpAfter_cons_cons_neg (by simpa using hcond)]
    rw [List.chain'_cons']
    constructor
    · intro y hy
      rw [addSpAfter_head?] at hy
      cases hy
      exact (List.chain'_cons.mp h).1
    · exact ih (List.Chain'.tail h)

/-! ### The expansion pass is reproduced after re-contraction -/

theorem key_peel {c2 : Char} {cs : List Char} (hp2 : isPunct c2 = false)
    (hR : rmSpBefore (c2 :: addSpAfter cs) = c2 :: rmSpBefore (addSpAfter cs))
    (hih : addSpAfter (rmSpBefore (addSpAfter (c2 :: cs))) = addSpAfter (c2 :: cs)) :
    addSpAfter (rmSpBefore (addSpAfter cs)) = addSpAfter cs := by
  rw [addSpAfter_cons_nonpunct hp2, hR, addSpAfter_cons_nonpunct hp2] at hih
  injection hih

/-- Applying `rmSpBefore` then `addSpAfter` to the output of `addSpAfter`
reproduces it, provided the input has no whitespace run of length two and no
whitespace immediately before punctuation. -/
theorem addSp_rmSp_addSp (u : List Char) :
    List.Chain' wsTight u →
      addSpAfter (rmSpBefore (addSpAfter u)) = addSpAfter u := by
  induction u using addSpAfter.induct with
  | case1 => intro _; rfl
  | case2 c =>
    intro _
    by_cases hc : isWs c = true
    · rw [addSpAfter_singleton, rmSpBefore_singleton_ws hc, addSpAfter_singleton]
    · rw [addSpAfter_singleton, rmSpBefore_cons_nonws (by simpa using hc)]
      rfl
  | case3 c1 c2 cs hcond ih =>
    intro h
    obtain ⟨h1, h2⟩ : isPunct c1 = true ∧ isWs c2 = false := by simpa using hcond
    have hws1 : isWs c1 = false := not_ws_of_punct h1
    have hsp : isWs ' ' = true := rfl
    have hcs : List.Chain' wsTight cs := (List.Chain'.tail h).tail
    rw [addSpAfter_cons_cons_pos h1 h2, rmSpBefore_cons_nonws hws1]
    by_cases hp2 : isPunct c2 = true
    · rw [rmSpBefore_cons_ws_punct hsp
        (rfl : (c2 :: addSpAfter cs).head? = some c2) h2 hp2,
        rmSpBefore_cons_nonws h2, addSpAfter_cons_cons_pos h1 h2, ih hcs]
    · have hp2' : isPunct c2 = false := by simpa using hp2
      rw [rmSpBefore_cons_ws_nonpunct hsp
        (rfl : (c2 :: addSpAfter cs).head? = some c2) h2 hp2',
        rmSpBefore_cons_nonws h2,
        addSpAfter_cons_cons_neg (by simp [h1, show isWs ' ' = true from rfl]),
        addSpAfter_cons_cons_neg (by simp [show isPunct ' ' = false from rfl]),
        addSpAfter_cons_nonpunct hp2', ih hcs]
  | case4 c1 c2 cs hcond ih =>
    intro h
    have hcondF : (isPunct c1 && !isWs c2) = false := by simpa using hcond
    rw [addSpAfter_cons_cons_neg hcondF]
    by_cases hc1 : isWs c1 = true
    · -- `c1` is whitespace, so by the invariant `c2` is neither whitespace
      -- nor punctuation.
      obtain ⟨hc2w, hc2p⟩ := (List.chain'_cons.mp h).1 hc1
      have hR : rmSpBefore (c2 :: addSpAfter cs) =
          c2 :: rmSpBefore (addSpAfter cs) := rmSpBefore_cons_nonws hc2w
      have hkey := key_peel hc2p hR (ih (List.Chain'.tail h))
      rw [addSpAfter_cons_nonpunct hc2p,
        rmSpBefore_cons_ws_nonpunct hc1
          (rfl : (c2 :: addSpAfter cs).head? = some c2) hc2w hc2p,
        hR, addSpAfter_cons_cons_neg (by simp [not_punct_of_ws hc1]),
        addSpAfter_cons_nonpunct hc2p, hkey]
    · have hc1' : isWs c1 = false := by simpa using hc1
      rw [rmSpBefore_cons_nonws hc1']
      by_cases hp1 : isPunct c1 = true
      · -- the guard of the previous case failed with `c1` punctuation, so
        -- `c2` must be whitespace.
        have hc2 : isWs c2 = true := by
          rcases Bool.and_eq_false_iff.mp hcondF with hF | hF
          · exact absurd hp1 (by simp [hF])
          · simpa using hF
        have hc2p : isPunct c2 = false := not_punct_of_ws hc2
        rw [addSpAfter_cons_nonpunct hc2p]
        cases cs with
        | nil =>
          rw [show addSpAfter ([] : List Char) = [] from rfl,
            rmSpBefore_singleton_ws hc2,
            addSpAfter_cons_cons_neg hcondF, addSpAfter_singleton]
        | cons e es =>
          obtain ⟨hew, hep⟩ := (List.chain'_cons'.mp (List.Chain'.tail h)).1 e rfl hc2
          have hhead : (addSpAfter (e :: es)).head? = some e := by
            rw [addSpAfter_head?]
            rfl
          have hR : rmSpBefore (c2 :: addSpAfter (e :: es)) =
              c2 :: rmSpBefore (addSpAfter (e :: es)) :=
            rmSpBefore_cons_ws_nonpunct hc2 hhead hew hep
          have hkey := key_peel hc2p hR (ih (List.Chain'.tail h))
          rw [hR, addSpAfter_cons_cons_neg hcondF,
            addSpAfter_cons_nonpunct hc2p, hkey]
      · have hp1' : isPunct c1 = false := by simpa using hp1
        rw [addSpAfter_cons_nonpunct hp1', ih (List.Chain'.tail h)]

/-! ### Trimming lemmas -/

theorem head?_dropWhile_false {p : Char → Bool} {l : List Char} {a : Char}
    (h : (l.dropWhile p).head? = some a) : p a = false := by
  induction l with
  | nil => cases h
  | cons c cs ih =>
    rw [List.dropWhile_cons] at h
    split at h
    · exact ih h
    · cases h
      rename_i hcond
      simpa using hcond

theorem dropWhile_eq_self_of_head {p : Char → Bool} {l : List Char}
    (h : ∀ a ∈ l.head?, p a = false) : l.dropWhile p = l := by
  cases l with
  | nil => rfl
  | cons c cs =>
    rw [List.dropWhile_cons, if_neg]
    simp [h c rfl]

theorem dropRightWhile_eq_self {p : Char → Bool} {l : List Char}
    (h : ∀ x ∈ l.getLast?, p x = false) : dropRightWhile p l = l := by
  unfold dropRightWhile
  rw [dropWhile_eq_self_of_head, List.reverse_reverse]
  intro a ha
  rw [List.head?_reverse] at ha
  exact h a ha

theorem dropRightWhile_append_unit {p : Char → Bool} {w : Char} (hw : p w = true)
    (l : List Char) : dropRightWhile p (l ++ [w]) = dropRightWhile p l := by
  unfold dropRightWhile
  rw [List.reverse_append]
  simp only [List.reverse_cons, List.reverse_nil, List.nil_append, List.cons_append]
  rw [List.dropWhile_cons, if_pos (by simp [hw])]

theorem getLast?_dropRightWhile_false {p : Char → Bool} {l : List Char} {a : Char}
    (h : (dropRightWhile p l).getLast? = some a) : p a = false := by
  unfold dropRightWhile at h
  rw [List.getLast?_reverse] at h
  exact head?_dropWhile_false h

theorem dropRightWhile_isPrefix (p : Char → Bool) (l : List Char) :
    dropRightWhile p l <+: l := by
  have h1 : (dropRightWhile p l).reverse <:+ l.reverse := by
    unfold dropRightWhile
    rw [List.reverse_reverse]
    exact List.dropWhile_suffix p
  exact List.reverse_suffix.mp (by simpa using h1)

theorem trimChars_infix_self (l : List Char) : trimChars l <:+: l := by
  unfold trimChars
  exact List.IsInfix.trans
    (List.IsPrefix.isInfix (dropRightWhile_isPrefix _ _))
    (List.IsSuffix.isInfix (List.dropWhile_suffix _))

theorem head?_eq_of_isPrefix {l l' : List Char} (h : l <+: l') (hne : l ≠ []) :
    l.head? = l'.head? := by
  obtain ⟨t, rfl⟩ := h
  cases l with
  | nil => exact absurd rfl hne
  | cons c cs => rfl

theorem trimChars_trimChars (l : List Char) :
    trimChars (trimChars l) = trimChars l := by
  unfold trimChars
  by_cases hz : dropRightWhile (fun c => isWs c) (l.dropWhile fun c => isWs c) = []
  · rw [hz]
    rfl
  · rw [dropWhile_eq_self_of_head, dropRightWhile_eq_self]
    · intro x hx
      exact getLast?_dropRightWhile_false hx
    · intro a ha
      rw [head?_eq_of_isPrefix (dropRightWhile_isPrefix _ _) hz] at ha
      exact head?_dropWhile_false ha

theorem collapseWs_eq_self {s : List Char} (hs : spacesOnly s)
    (hch : List.Chain' wsIsolated s) : collapseWs s = s := by
  induction s with
  | nil => rfl
  | cons c cs ih =>
    by_cases hc : isWs c = true
    · have hsp : c = ' ' := hs c (List.mem_cons_self c cs) hc
      cases cs with
      | nil =>
        rw [collapseWs_singleton_ws hc, hsp]
      | cons d ds =>
        have hd : isWs d = false := (List.chain'_cons.mp hch).1 hc
        rw [collapseWs_cons_ws_nonws hc hd,
          ih (spacesOnly_cons hs) (List.Chain'.tail hch), hsp]
    · rw [collapseWs_cons_nonws (by simpa using hc),
        ih (spacesOnly_cons hs) (List.Chain'.tail hch)]

/-- Left trimming commutes with the space-insertion pass on strings whose
whitespace is isolated. -/
theorem dropWhile_addSpAfter {u : List Char} (h : List.Chain' wsIsolated u) :
    (addSpAfter u).dropWhile (fun c => isWs c) =
      addSpAfter (u.dropWhile (fun c => isWs c)) := by
  cases u with
  | nil => rfl
  | cons c cs =>
    by_cases hc : isWs c = true
    · rw [addSpAfter_cons_nonpunct (not_punct_of_ws hc), List.dropWhile_cons,
        if_pos (by simp [hc]), List.dropWhile_cons, if_pos (by simp [hc])]
      cases cs with
      | nil => rfl
      | cons d ds =>
        have hd : isWs d = false := (List.chain'_cons.mp h).1 hc
        rw [dropWhile_eq_self_of_head, dropWhile_eq_self_of_head]
        · intro a ha
          cases ha
          exact hd
        · intro a ha
          rw [addSpAfter_head?] at ha
          cases ha
          exact hd
    · rw [dropWhile_eq_self_of_head, dropWhile_eq_self_of_head]
      · intro a ha
        cases ha
        simpa using hc
      · intro a ha
        rw [addSpAfter_head?] at ha
        cases ha
        simpa using hc

/-- Right trimming commutes with the space-insertion pass on strings whose
whitespace is isolated. -/
theorem dropRightWhile_addSpAfter {v : List Char} (h : List.Chain' wsIsolated v) :
    dropRightWhile (fun c => isWs c) (addSpAfter v) =
      addSpAfter (dropRightWhile (fun c => isWs c) v) := by
  cases hlast : v.getLast? with
  | none =>
    rw [List.getLast?_eq_none_iff.mp hlast]
    rfl
  | some w =>
    by_cases hw : isWs w = true
    · have hv : v.dropLast ++ [w] = v := List.dropLast_append_getLast? w hlast
      have hnl : ∀ x ∈ (v.dropLast).getLast?, isWs x = false := by
        intro x hx
        have hch := h
        rw [← hv] at hch
        have h3 := (List.chain'_append.mp hch).2.2 x hx w rfl
        cases hxw : isWs x with
        | false => rfl
        | true => exact absurd hw (by simp [h3 hxw])
      rw [← hv, dropRightWhile_append_unit hw, addSpAfter_append_ws hw,
        dropRightWhile_append_unit hw,
        dropRightWhile_eq_self (fun x hx => by
          rw [addSpAfter_getLast?] at hx
          exact hnl x hx),
        dropRightWhile_eq_self hnl]
    · have hw' : isWs w = false := by simpa using hw
      rw [dropRightWhile_eq_self, dropRightWhile_eq_self]
      · intro x hx
        rw [hlast] at hx
        cases hx
        exact hw'
      · intro x hx
        rw [addSpAfter_getLast?, hlast] at hx
        cases hx
        exact hw'

theorem trimChars_addSpAfter {u : List Char} (h : List.Chain' wsIsolated u) :
    trimChars (addSpAfter u) = addSpAfter (trimChars u) := by
  unfold trimChars
  rw [dropWhile_addSpAfter h, dropRightWhile_addSpAfter
    (List.Chain'.suffix h (List.dropWhile_suffix _))]

/-- C8: the whitespace/punctuation normalization of `formatAudioPenStyle`
(collapse whitespace runs, remove space before punctuation, add a space
after punctuation, trim) is idempotent: applying it twice yields the same
result as applying it once. -/
theorem normalize_idempotent (t : List Char) :
    normalizeText (normalizeText t) = normalizeText t := by
  have hw_sp : spacesOnly (collapseWs t) := spacesOnly_collapseWs t
  have hw_ch : List.Chain' wsIsolated (collapseWs t) := chain_collapseWs t
  have hu_good : List.Chain' wsTight (rmSpBefore (collapseWs t)) :=
    chain_rmSpBefore hw_ch
  have hu_sp : spacesOnly (rmSpBefore (collapseWs t)) := spacesOnly_rmSpBefore hw_sp
  have hu_iso : List.Chain' wsIsolated (rmSpBefore (collapseWs t)) :=
    List.Chain'.imp (fun a b hab => wsTight.isolated hab) hu_good
  have hcomm :
      trimChars (addSpAfter (rmSpBefore (collapseWs t))) =
        addSpAfter (trimChars (rmSpBefore (collapseWs t))) :=
    trimChars_addSpAfter hu_iso
  have hu'_good : List.Chain' wsTight (trimChars (rmSpBefore (collapseWs t))) :=
    List.Chain'.infix hu_good (trimChars_infix_self _)
  have hu'_iso : List.Chain' wsIsolated (trimChars (rmSpBefore (collapseWs t))) :=
    List.Chain'.imp (fun a b hab => wsTight.isolated hab) hu'_good
  have hu'_sp : spacesOnly (trimChars (rmSpBefore (collapseWs t))) :=
    fun c hc hw => hu_sp c
      (List.IsInfix.subset (trimChars_infix_self _) hc) hw
  have hs_def : normalizeText t = addSpAfter (trimChars (rmSpBefore (collapseWs t))) := by
    unfold normalizeText
    exact hcomm
  have hs_sp : spacesOnly (normalizeText t) := by
    rw [hs_def]
    exact spacesOnly_addSpAfter hu'_sp
  have hs_iso : List.Chain' wsIsolated (normalizeText t) := by
    rw [hs_def]
    exact chain_addSpAfter hu'_iso
  have hcol : collapseWs (normalizeText t) = normalizeText t :=
    collapseWs_eq_self hs_sp hs_iso
  have hkey : addSpAfter (rmSpBefore (normalizeText t)) = normalizeText t := by
    rw [hs_def]
    exact addSp_rmSp_addSp _ hu'_good
  calc normalizeText (normalizeText t)
      = trimChars (addSpAfter (rmSpBefore (collapseWs (normalizeText t)))) := rfl
    _ = trimChars (addSpAfter (rmSpBefore (normalizeText t))) := by rw [hcol]
    _ = trimChars (normalizeText t) := by rw [hkey]
    _ = trimChars (trimChars (addSpAfter (rmSpBefore (collapseWs t)))) := rfl
    _ = trimChars (addSpAfter (rmSpBefore (collapseWs t))) := trimChars_trimChars _
    _ = normalizeText t := rfl

/-! ### Claim theorems about the structurer -/

/-- C5: `formatWithAI` never propagates a failure: with the remote call
modelled as an `Except` oracle and a possible heuristic failure modelled by
the `heuristicFails` flag, the result is always a string produced by one of
the three tiers; a remote failure routes to `formatAudioPenStyle`, a
heuristic failure on top of it routes to `formatBasic`, and the fallbacks
are total — including on the empty string, a single character, and text
without sentence-ending punctuation. -/
theorem structure_total_fallback (remoteResult : Except (List Char) (List Char))
    (heuristicFails : Bool) (rawText : List Char) :
    (∃ out, formatWithAI remoteResult heuristicFails rawText = out ∧
      (remoteResult = Except.ok out ∨ out = formatAudioPenStyle rawText ∨
        out = formatBasic rawText)) ∧
    (∀ e, remoteResult = Except.error e → heuristicFails = false →
      formatWithAI remoteResult heuristicFails rawText = formatAudioPenStyle rawText) ∧
    (∀ e, remoteResult = Except.error e → heuristicFails = true →
      formatWithAI remoteResult heuristicFails rawText = formatBasic rawText) ∧
    formatWithAI (Except.error []) false [] = [] ∧
    formatWithAI (Except.error []) true [] = [] ∧
    formatWithAI (Except.error []) false "a".data = "a".data ∧
    formatWithAI (Except.error []) true "a".data = "• a".data ∧
    formatWithAI (Except.error []) false
        "hello world with no punctuation at all".data =
      "hello world with no punctuation at all".data ∧
    formatWithAI (Except.error []) true
        "hello world with no punctuation at all".data =
      "• hello world with no punctuation at all".data := by
  refine ⟨?_, ?_, ?_, by decide, by decide, by decide, by decide, by decide,
    by decide⟩
  · cases remoteResult with
    | ok s => exact ⟨s, rfl, Or.inl rfl⟩
    | error e =>
      cases heuristicFails with
      | false => exact ⟨formatAudioPenStyle rawText, rfl, Or.inr (Or.inl rfl)⟩
      | true => exact ⟨formatBasic rawText, rfl, Or.inr (Or.inr rfl)⟩
  · intro e he hf
    subst he
    subst hf
    rfl
  · intro e he hf
    subst he
    subst hf
    rfl

/-- Witness for C5: with the remote call failing, the heuristic tier answers;
with both failing, the basic fallback answers. -/
theorem structure_total_fallback_witness :
    formatWithAI (Except.error "network".data) false "a".data =
      formatAudioPenStyle "a".data ∧
    formatWithAI (Except.error "network".data) true "a".data =
      formatBasic "a".data :=
  ⟨(structure_total_fallback (Except.error "network".data) false "a".data).2.1
      "network".data rfl rfl,
   (structure_total_fallback (Except.error "network".data) true "a".data).2.2.1
      "network".data rfl rfl⟩

set_option maxRecDepth 40000 in
/-- C6: `formatMeetingStyle` places every sentence in exactly one of the four
buckets (question / action item / discussion / note, checked in that priority
order), and on the example sentences produces a Discussion Points section
with the first sentence, an Action Items section with the second with its
leading pronoun stripped, and a Questions section with the third, the
sections appearing in that fixed order; the same output results from the
full `formatAudioPenStyle` dispatch on the joined text. -/
theorem formatMeetingStyle_classification :
    (∀ sentences : List (List Char),
      (meetingBuckets sentences).1.length + (meetingBuckets sentences).2.1.length +
        (meetingBuckets sentences).2.2.1.length +
        (meetingBuckets sentences).2.2.2.length = sentences.length) ∧
    formatMeetingStyle
        ["We discussed the budget.".data,
         "We need to finalize the report by Friday.".data,
         "Is the deadline fixed?".data] =
      ("Key Discussion Points:\n\n\u2022 We discussed the budget.\n\n" ++
        "Action Items:\n\n\u2022 need to finalize the report by Friday.\n\n" ++
        "Questions:\n\n\u2022 Is the deadline fixed?").data ∧
    formatAudioPenStyle
        ("We discussed the budget. We need to finalize the report by Friday. " ++
          "Is the deadline fixed?").data =
      formatMeetingStyle
        ["We discussed the budget.".data,
         "We need to finalize the report by Friday.".data,
         "Is the deadline fixed?".data] ∧
    "Discussion Points".data <:+:
      formatMeetingStyle
        ["We discussed the budget.".data,
         "We need to finalize the report by Friday.".data,
         "Is the deadline fixed?".data] ∧
    "\u2022 We discussed the budget.".data <:+:
      formatMeetingStyle
        ["We discussed the budget.".data,
         "We need to finalize the report by Friday.".data,
         "Is the deadline fixed?".data] ∧
    "Action Items:".data <:+:
      formatMeetingStyle
        ["We discussed the budget.".data,
         "We need to finalize the report by Friday.".data,
         "Is the deadline fixed?".data] ∧
    "\u2022 need to finalize the report by Friday.".data <:+:
      formatMeetingStyle
        ["We discussed the budget.".data,
         "We need to finalize the report by Friday.".data,
         "Is the deadline fixed?".data] ∧
    "Questions:".data <:+:
      formatMeetingStyle
        ["We discussed the budget.".data,
         "We need to finalize the report by Friday.".data,
         "Is the deadline fixed?".data] ∧
    "\u2022 Is the deadline fixed?".data <:+:
      formatMeetingStyle
        ["We discussed the budget.".data,
         "We need to finalize the report by Friday.".data,
         "Is the deadline fixed?".data] := by
  refine ⟨?_, by decide, by decide, by decide, by decide, by decide, by decide,
    by decide, by decide⟩
  intro sentences
  induction sentences with
  | nil => rfl
  | cons s rest ih =>
    unfold meetingBuckets
    rcases hmb : meetingBuckets rest with ⟨d, a, q, o⟩
    rw [hmb] at ih
    simp only at ih
    split_ifs <;> simp <;> omega

/-! ### Sanitization and length facts for the title fallback -/

theorem collapseCRLF_cons_other {c : Char} {l : List Char}
    (h : (c = '\r' || c = '\n') = false) :
    collapseCRLF (c :: l) = c :: collapseCRLF l := by
  simp only [collapseCRLF, h]
  simp

theorem length_collapseCRLF_le (l : List Char) :
    (collapseCRLF l).length ≤ l.length := by
  induction l with
  | nil => simp [collapseCRLF]
  | cons c cs ih =>
    by_cases hc : (c = '\r' || c = '\n') = true
    · cases cs with
      | nil =>
        simp [collapseCRLF, hc]
      | cons d ds =>
        by_cases hd : (d = '\r' || d = '\n') = true
        · rw [show collapseCRLF (c :: d :: ds) = collapseCRLF (d :: ds) by
            simp [collapseCRLF, hc, hd]]
          exact le_trans ih (by simp)
        · rw [show collapseCRLF (c :: d :: ds) = ' ' :: collapseCRLF (d :: ds) by
            simp only [collapseCRLF, hc, if_pos hc]
            simp [hd]]
          simpa using ih
    · rw [collapseCRLF_cons_other (by simpa using hc)]
      simpa using ih

theorem mem_collapseCRLF_no_crlf {c : Char} {l : List Char}
    (h : c ∈ collapseCRLF l) : (c = '\r' || c = '\n') = false := by
  induction l with
  | nil => cases h
  | cons x xs ih =>
    by_cases hx : (x = '\r' || x = '\n') = true
    · cases xs with
      | nil =>
        rw [show collapseCRLF [x] = [' '] by simp [collapseCRLF, hx]] at h
        rcases List.mem_singleton.mp h with h'
        subst h'
        rfl
      | cons d ds =>
        by_cases hd : (d = '\r' || d = '\n') = true
        · rw [show collapseCRLF (x :: d :: ds) = collapseCRLF (d :: ds) by
            simp [collapseCRLF, hx, hd]] at h
          exact ih h
        · rw [show collapseCRLF (x :: d :: ds) = ' ' :: collapseCRLF (d :: ds) by
            simp only [collapseCRLF, hx, if_pos hx]
            simp [hd]] at h
          rcases List.mem_cons.mp h with h' | h'
          · subst h'
            rfl
          · exact ih h'
    · rw [collapseCRLF_cons_other (by simpa using hx)] at h
      rcases List.mem_cons.mp h with h' | h'
      · subst h'
        simpa using hx
      · exact ih h'

theorem length_dropRightWhile_le (p : Char → Bool) (l : List Char) :
    (dropRightWhile p l).length ≤ l.length :=
  List.Sublist.length_le (List.IsPrefix.sublist (dropRightWhile_isPrefix p l))

theorem length_trimChars_le (l : List Char) : (trimChars l).length ≤ l.length :=
  List.Sublist.length_le (List.IsInfix.sublist (trimChars_infix_self l))

theorem length_sanitizeTitle_le (l : List Char) :
    (sanitizeTitle l).length ≤ l.length := by
  unfold sanitizeTitle
  calc (trimChars (dropRightWhile (fun c => isQuoteWs c)
          ((collapseCRLF l).dropWhile (fun c => isQuoteWs c)))).length
      ≤ (dropRightWhile (fun c => isQuoteWs c)
          ((collapseCRLF l).dropWhile (fun c => isQuoteWs c))).length :=
        length_trimChars_le _
    _ ≤ ((collapseCRLF l).dropWhile (fun c => isQuoteWs c)).length :=
        length_dropRightWhile_le _ _
    _ ≤ (collapseCRLF l).length :=
        List.Sublist.length_le (List.IsSuffix.sublist (List.dropWhile_suffix _))
    _ ≤ l.length := length_collapseCRLF_le l

theorem mem_sanitizeTitle {c : Char} {l : List Char} (h : c ∈ sanitizeTitle l) :
    c ∈ collapseCRLF l := by
  unfold sanitizeTitle at h
  have h1 := List.IsInfix.subset (trimChars_infix_self _) h
  have h2 := List.IsPrefix.subset (dropRightWhile_isPrefix _ _) h1
  exact List.IsSuffix.subset (List.dropWhile_suffix _) h2

theorem isWs_false_of_isQuoteWs_false {c : Char} (h : isQuoteWs c = false) :
    isWs c = false := by
  cases hw : isWs c with
  | false => rfl
  | true =>
    rw [show isQuoteWs c = (c = '"' || c = '\'' || isWs c) from rfl, hw] at h
    simp at h

theorem trimChars_eq_self {l : List Char}
    (h1 : ∀ c ∈ l.head?, isWs c = false) (h2 : ∀ c ∈ l.getLast?, isWs c = false) :
    trimChars l = l := by
  unfold trimChars
  rw [dropWhile_eq_self_of_head h1, dropRightWhile_eq_self h2]

theorem titleCandidate_reshape (FS CL : List Char) :
    (if (if 60 < FS.length then trimChars (FS.take 57) ++ ['\u2026'] else FS) = []
     then CL.take 60
     else (if 60 < FS.length then trimChars (FS.take 57) ++ ['\u2026'] else FS)) =
    (if FS = [] ∧ ¬ 60 < FS.length then CL.take 60
     else if 60 < FS.length then trimChars (FS.take 57) ++ ['\u2026'] else FS) := by
  by_cases h60 : 60 < FS.length
  · rw [if_pos h60, if_neg (by simp), if_neg (by simp [h60])]
  · rw [if_neg h60]
    by_cases hfs : FS = []
    · rw [if_pos hfs, if_pos ⟨hfs, h60⟩]
    · rw [if_neg hfs, if_neg (by simp [hfs])]

theorem sanitizeTitle_boundary (x : List Char) :
    (∀ c ∈ (sanitizeTitle x).head?, isQuoteWs c = false) ∧
    (∀ c ∈ (sanitizeTitle x).getLast?, isQuoteWs c = false) := by
  have hhead : ∀ c ∈ (dropRightWhile (fun c => isQuoteWs c)
      ((collapseCRLF x).dropWhile (fun c => isQuoteWs c))).head?, isQuoteWs c = false := by
    intro c hc
    by_cases hz : dropRightWhile (fun c => isQuoteWs c)
        ((collapseCRLF x).dropWhile (fun c => isQuoteWs c)) = []
    · rw [hz] at hc
      cases hc
    · rw [head?_eq_of_isPrefix (dropRightWhile_isPrefix _ _) hz] at hc
      exact head?_dropWhile_false hc
  have hlast : ∀ c ∈ (dropRightWhile (fun c => isQuoteWs c)
      ((collapseCRLF x).dropWhile (fun c => isQuoteWs c))).getLast?, isQuoteWs c = false :=
    fun c hc => getLast?_dropRightWhile_false hc
  have htrim : sanitizeTitle x = dropRightWhile (fun c => isQuoteWs c)
      ((collapseCRLF x).dropWhile (fun c => isQuoteWs c)) :=
    trimChars_eq_self
      (fun c hc => isWs_false_of_isQuoteWs_false (hhead c hc))
      (fun c hc => isWs_false_of_isQuoteWs_false (hlast c hc))
  rw [htrim]
  exact ⟨hhead, hlast⟩

/-- C7 counterexample: on the input `". x."` (non-blank, so the fallback
path runs) the collapsed text is `". x."` itself; "text up to the first
`'.'`" is the empty string (or `"."` if the terminator is counted), and no
truncation or sanitization of either can produce `"x."`; yet the code's
fallback title is `"x."`, because the regex `/[^.!?]+[.!?]?/` skips the
leading terminator instead of matching the prefix before it. -/
theorem generateTitle_first_sentence_counterexample :
    trimChars ". x.".data ≠ [] ∧
    trimChars (collapseWs (trimChars ". x.".data)) = ". x.".data ∧
    generateTitle (Except.error "fail".data) ". x.".data = "x.".data ∧
    "x.".data ≠ ([] : List Char) ∧ "x.".data ≠ ['.'] ∧
    sanitizeTitle [] = [] ∧ sanitizeTitle ['.'] = ['.'] := by
  decide

/-- C7 (amended): `generateTitle` on input blank after trimming returns the
empty title whatever the remote oracle would answer (no remote call is
consulted); on remote failure the fallback title is `sanitizeTitle` of a
candidate obtained from the whitespace-collapsed input: the first match of
`/[^.!?]+[.!?]?/` (the first maximal run of non-terminator characters plus
one following terminator, skipping any leading terminators), trimmed; if
that sentence is longer than 60 characters it is cut to 57 characters,
right-trimmed and suffixed with an ellipsis; if it is empty the first 60
characters of the collapsed input are used.  The result is at most 60
characters, contains no carriage return or line feed, and neither starts
nor ends with a quote or whitespace character. -/
theorem generateTitle_fallback (text e : List Char) :
    (trimChars text = [] → ∀ remote, generateTitle remote text = []) ∧
    (trimChars text ≠ [] →
      ∃ candidate,
        generateTitle (Except.error e) text = sanitizeTitle candidate ∧
        ((trimChars (firstSentenceMatch (trimChars (collapseWs (trimChars text)))) ≠ [] ∧
          (trimChars (firstSentenceMatch
            (trimChars (collapseWs (trimChars text))))).length ≤ 60 ∧
          candidate =
            trimChars (firstSentenceMatch (trimChars (collapseWs (trimChars text))))) ∨
         (60 < (trimChars (firstSentenceMatch
            (trimChars (collapseWs (trimChars text))))).length ∧
          candidate =
            trimChars ((trimChars (firstSentenceMatch
              (trimChars (collapseWs (trimChars text))))).take 57) ++ ['\u2026']) ∨
         (trimChars (firstSentenceMatch (trimChars (collapseWs (trimChars text)))) = [] ∧
          candidate = (trimChars (collapseWs (trimChars text))).take 60))) ∧
    (generateTitle (Except.error e) text).length ≤ 60 ∧
    (∀ c ∈ generateTitle (Except.error e) text, (c = '\r' || c = '\n') = false) ∧
    (∀ c ∈ (generateTitle (Except.error e) text).head?, isQuoteWs c = false) ∧
    (∀ c ∈ (generateTitle (Except.error e) text).getLast?, isQuoteWs c = false) := by
  by_cases hblank : trimChars text = []
  · refine ⟨fun _ remote => by simp [generateTitle, hblank], fun hne => absurd hblank hne,
      ?_, ?_, ?_, ?_⟩ <;> simp [generateTitle, hblank]
  · have hform : generateTitle (Except.error e) text =
        sanitizeTitle
          (if trimChars (firstSentenceMatch (trimChars (collapseWs (trimChars text)))) = []
              ∧ ¬ 60 < (trimChars (firstSentenceMatch
                  (trimChars (collapseWs (trimChars text))))).length then
            (trimChars (collapseWs (trimChars text))).take 60
          else if 60 < (trimChars (firstSentenceMatch
              (trimChars (collapseWs (trimChars text))))).length then
            trimChars ((trimChars (firstSentenceMatch
              (trimChars (collapseWs (trimChars text))))).take 57) ++ ['\u2026']
          else trimChars (firstSentenceMatch (trimChars (collapseWs (trimChars text))))) := by
      unfold generateTitle
      rw [if_neg hblank]
      show sanitizeTitle
          (if (if 60 < (trimChars (firstSentenceMatch (trimChars (collapseWs
                (trimChars text))))).length then
              trimChars ((trimChars (firstSentenceMatch (trimChars (collapseWs
                (trimChars text))))).take 57) ++ ['\u2026']
            else trimChars (firstSentenceMatch (trimChars (collapseWs
                (trimChars text))))) = [] then
            (trimChars (collapseWs (trimChars text))).take 60
          else
            if 60 < (trimChars (firstSentenceMatch (trimChars (collapseWs
                (trimChars text))))).length then
              trimChars ((trimChars (firstSentenceMatch (trimChars (collapseWs
                (trimChars text))))).take 57) ++ ['\u2026']
            else trimChars (firstSentenceMatch (trimChars (collapseWs
                (trimChars text))))) = _
      rw [titleCandidate_reshape]
    refine ⟨fun h => absurd h hblank, ?_, ?_, ?_, ?_, ?_⟩
    · intro _
      by_cases h60 : 60 < (trimChars (firstSentenceMatch
          (trimChars (collapseWs (trimChars text))))).length
      · refine ⟨_, hform, Or.inr (Or.inl ⟨h60, ?_⟩)⟩
        rw [if_neg (by simp [h60]), if_pos h60]
      · by_cases hfs : trimChars (firstSentenceMatch
            (trimChars (collapseWs (trimChars text)))) = []
        · refine ⟨_, hform, Or.inr (Or.inr ⟨hfs, ?_⟩)⟩
          rw [if_pos ⟨hfs, h60⟩]
        · refine ⟨_, hform, Or.inl ⟨hfs, by omega, ?_⟩⟩
          rw [if_neg (by simp [hfs, h60]), if_neg h60]
    · rw [hform]
      refine le_trans (length_sanitizeTitle_le _) ?_
      split_ifs with h1 h2
      · exact le_trans (List.length_take_le _ _) (by omega)
      · have hle := length_trimChars_le ((trimChars (firstSentenceMatch
          (trimChars (collapseWs (trimChars text))))).take 57)
        have htk := List.length_take_le 57 (trimChars (firstSentenceMatch
          (trimChars (collapseWs (trimChars text)))))
        simp only [List.length_append, List.length_cons, List.length_nil]
        omega
      · omega
    · rw [hform]
      intro c hc
      exact mem_collapseCRLF_no_crlf (mem_sanitizeTitle hc)
    · rw [hform]
      exact (sanitizeTitle_boundary _).1
    · rw [hform]
      exact (sanitizeTitle_boundary _).2

/-- Witness for C7: blank input produces the empty title regardless of the
remote oracle, and on `". x."` with a failed remote call the fallback is
within the 60-character bound. -/
theorem generateTitle_fallback_witness :
    generateTitle (Except.ok "Some Remote Title".data) "  \t ".data = [] ∧
    (generateTitle (Except.error "fail".data) ". x.".data).length ≤ 60 :=
  ⟨(generateTitle_fallback "  \t ".data "fail".data).1 (by decide)
      (Except.ok "Some Remote Title".data),
   (generateTitle_fallback ". x.".data "fail".data).2.2.1⟩

end Oscar
